import Mathlib

/-!
Verification of the tiered account storage engine (accounts-db and runtime
tiered_storage modules): a shallow embedding of the magic-number constants,
the packed lamports-info encoding, the owner-deduplication table, the hot
account-meta builders, the writer padding computation, the read-only file
open checks, the writer orchestration, the drop behaviour of the storage
handle, and the hot storage reader.
-/

namespace TieredStorageProof

/-! ## Little-endian u64 decoding and the magic numbers

From accounts-db/src/tiered_storage/file.rs:
`pub const FILE_MAGIC_NUMBER: u64 = u64::from_le_bytes(*b"AnzaTech");`
and from runtime/src/tiered_storage/footer.rs:
`pub const FOOTER_MAGIC_NUMBER: u64 = 0x502A2AB5;`
-/

/-- Interprets a list of bytes as a little-endian unsigned integer
(the first byte is least significant), as `u64::from_le_bytes` does. -/
def u64FromLeBytes (bs : List Nat) : Nat :=
  bs.foldr (fun b acc => acc * 256 + b) 0

/-- The ASCII bytes of the string literal `b"AnzaTech"`. -/
def anzaTechBytes : List Nat :=
  [0x41, 0x6E, 0x7A, 0x61, 0x54, 0x65, 0x63, 0x68]

/-- `FILE_MAGIC_NUMBER` of accounts-db/src/tiered_storage/file.rs: the ending
8 bytes of a valid tiered account storage file. -/
def FILE_MAGIC_NUMBER : Nat := u64FromLeBytes anzaTechBytes

/-- `FOOTER_MAGIC_NUMBER` of runtime/src/tiered_storage/footer.rs (the older
format version kept in the runtime tree). -/
def FOOTER_MAGIC_NUMBER : Nat := 0x502A2AB5

/-! ## Writer padding computation (C9)

From accounts-db/src/tiered_storage/writer.rs, `write_single_account`:
`.with_account_data_padding(((8 - (account_data.len() % 8)) % 8).try_into().unwrap())`
-/

/-- The number of padding bytes the writer inserts after the account data,
as computed inline in `write_single_account`. -/
def accountDataPaddingFor (data_len : Nat) : Nat :=
  (8 - data_len % 8) % 8

/-! ## Packed lamports-info encoding (C5)

From accounts-db/src/tiered_storage/meta.rs: the `AccountMetaFlags`
bitfield (`has_rent_epoch: bool, executable: bool, lamports_info: B30`),
its constants, `AccountMetaFlags::new_from` and `AccountMetaFlags::lamports`.
-/

/-- `LAMPORTS_INFO_BITS`: the number of bits of the `lamports_info` field. -/
def LAMPORTS_INFO_BITS : Nat := 30

/-- `LAMPORTS_INFO_RESERVED_VALUES`: the number of special values inside
`lamports_info`. -/
def LAMPORTS_INFO_RESERVED_VALUES : Nat := 2

/-- `LAMPORTS_INFO_MAX_BALANCE`: the max lamports balance that the
`lamports_info` field can handle. -/
def LAMPORTS_INFO_MAX_BALANCE : Nat :=
  (2 ^ LAMPORTS_INFO_BITS - 1) - LAMPORTS_INFO_RESERVED_VALUES

/-- `LAMPORTS_INFO_IS_ZERO_BALANCE`: reserved value meaning zero balance. -/
def LAMPORTS_INFO_IS_ZERO_BALANCE : Nat := 0

/-- `LAMPORTS_INFO_HAS_OPTIONAL_FIELD`: reserved value meaning the lamports
balance is stored in the optional fields. -/
def LAMPORTS_INFO_HAS_OPTIONAL_FIELD : Nat := 1

/-- The `AccountMetaFlags` bitfield of accounts-db/src/tiered_storage/meta.rs.
The `lamports_info` field is the 30-bit `B30` field; every assignment the
code performs keeps it below `2 ^ 30` (the bitfield setter rejects larger
values). -/
structure AccountMetaFlags where
  has_rent_epoch : Bool
  executable : Bool
  lamports_info : Nat
deriving DecidableEq

/-- `AccountMetaFlags::default()`: all bits zero. -/
def AccountMetaFlags.default : AccountMetaFlags :=
  { has_rent_epoch := false, executable := false, lamports_info := 0 }

/-- The in-memory optional fields of accounts-db/src/tiered_storage/meta.rs:
`rent_epoch: Option<Epoch>` and `lamports: Option<u64>`. -/
structure AccountMetaOptionalFields where
  rent_epoch : Option Nat
  lamports : Option Nat
deriving DecidableEq

/-- `AccountMetaFlags::new_from(optional_fields, lamports)`. The
`(lamports + LAMPORTS_INFO_RESERVED_VALUES) as u32` cast is the `% 2 ^ 32`
reduction; the code asserts `lamports <= LAMPORTS_INFO_MAX_BALANCE` on that
branch, so the cast never truncates there. -/
def AccountMetaFlags.new_from (optional_fields : AccountMetaOptionalFields)
    (lamports : Nat) : AccountMetaFlags :=
  let flags := { AccountMetaFlags.default with
                 has_rent_epoch := optional_fields.rent_epoch.isSome }
  let flags :=
    if optional_fields.lamports.isSome then
      { flags with lamports_info := LAMPORTS_INFO_HAS_OPTIONAL_FIELD }
    else if lamports ≠ 0 then
      { flags with
        lamports_info := (lamports + LAMPORTS_INFO_RESERVED_VALUES) % 2 ^ 32 }
    else
      flags
  { flags with executable := false }

/-- `AccountMetaFlags::lamports()`: decodes the packed `lamports_info`. -/
def AccountMetaFlags.lamports (f : AccountMetaFlags) : Option Nat :=
  if f.lamports_info = LAMPORTS_INFO_IS_ZERO_BALANCE then
    some 0
  else if f.lamports_info = LAMPORTS_INFO_HAS_OPTIONAL_FIELD then
    none
  else
    some (f.lamports_info - LAMPORTS_INFO_RESERVED_VALUES)

/-- `AccountMetaFlags::has_zero_lamports()`. -/
def AccountMetaFlags.has_zero_lamports (f : AccountMetaFlags) : Bool :=
  f.lamports_info = LAMPORTS_INFO_IS_ZERO_BALANCE

/-! ## Theorems for claims C4, C9 and C5 -/

/-- C4 (counterexample): the magic number constant of the runtime tree,
`FOOTER_MAGIC_NUMBER` in runtime/src/tiered_storage/footer.rs — the constant
that the runtime footer writer appends at end-of-file and that
`TieredStorageFooter::new_from_mmap` requires on open — is `0x502A2AB5`,
not the ASCII bytes of "AnzaTech" as a little-endian u64. -/
theorem footer_magic_number_is_not_anza_tech :
    FOOTER_MAGIC_NUMBER = 0x502A2AB5 ∧ FOOTER_MAGIC_NUMBER ≠ 0x68636554617A6E41 := by
  decide

/-- C4 (amended): the accounts-db `FILE_MAGIC_NUMBER` — required at
end-of-file by `TieredReadableFile::new` — equals the ASCII bytes of
"AnzaTech" as a little-endian u64, namely `0x68636554617A6E41`; the older
runtime tree instead uses `FOOTER_MAGIC_NUMBER = 0x502A2AB5`, a different
value. -/
theorem file_magic_number_is_anza_tech :
    FILE_MAGIC_NUMBER = 0x68636554617A6E41 ∧
    FILE_MAGIC_NUMBER = u64FromLeBytes anzaTechBytes ∧
    FOOTER_MAGIC_NUMBER = 0x502A2AB5 ∧
    FOOTER_MAGIC_NUMBER ≠ FILE_MAGIC_NUMBER := by
  decide

/-- C9: for every account data length `d` the writer padding
`p = (8 - d % 8) % 8` lies in `[0, 7]` and satisfies `(d + p) % 8 = 0`;
in particular `p = 0` when `d` is a multiple of 8 and `p = 1` when `d` is
one less than a multiple of 8. -/
theorem account_data_padding_spec (d : Nat) :
    accountDataPaddingFor d ≤ 7 ∧
    (d + accountDataPaddingFor d) % 8 = 0 ∧
    (d % 8 = 0 → accountDataPaddingFor d = 0) ∧
    (d % 8 = 7 → accountDataPaddingFor d = 1) := by
  unfold accountDataPaddingFor
  omega

/-- C9 (witness): the padding theorem evaluated at the concrete data
lengths 16 (a multiple of 8) and 15 (one less than a multiple of 8). -/
theorem account_data_padding_spec_witness :
    accountDataPaddingFor 16 = 0 ∧ accountDataPaddingFor 15 = 1 :=
  ⟨(account_data_padding_spec 16).2.2.1 (by decide),
   (account_data_padding_spec 15).2.2.2 (by decide)⟩

/-- Helper: the stored `lamports_info` value that `new_from` produces. -/
theorem new_from_lamports_info (optional_fields : AccountMetaOptionalFields)
    (lamports : Nat) :
    (AccountMetaFlags.new_from optional_fields lamports).lamports_info =
      if optional_fields.lamports.isSome then LAMPORTS_INFO_HAS_OPTIONAL_FIELD
      else if lamports = 0 then 0
      else (lamports + LAMPORTS_INFO_RESERVED_VALUES) % 2 ^ 32 := by
  unfold AccountMetaFlags.new_from AccountMetaFlags.default
  by_cases h : optional_fields.lamports.isSome <;>
    by_cases h0 : lamports = 0 <;>
      simp [h, h0]

/-- Helper: `lamports()` written out as a decision over the stored value. -/
theorem lamports_decode (f : AccountMetaFlags) :
    f.lamports =
      if f.lamports_info = 0 then some 0
      else if f.lamports_info = 1 then none
      else some (f.lamports_info - 2) := by
  unfold AccountMetaFlags.lamports
  simp [LAMPORTS_INFO_IS_ZERO_BALANCE, LAMPORTS_INFO_HAS_OPTIONAL_FIELD,
    LAMPORTS_INFO_RESERVED_VALUES]

/-- C5: the packed lamports-info encoding round-trips.  Constructing the
flags with no optional lamports field stores `0` for balance `0` and
`lamports + 2` for balances in `[1, 2 ^ 30 - 3]`; with an optional lamports
field present it stores `1`.  Decoding maps stored value `0` to `some 0`,
`1` to `none`, and any other value `v` to `some (v - 2)`; hence for every
balance within `LAMPORTS_INFO_MAX_BALANCE` decoding the encoded flags
returns the original balance. -/
theorem lamports_info_encode_decode :
    (∀ re : Option Nat,
      (AccountMetaFlags.new_from ⟨re, none⟩ 0).lamports_info =
        LAMPORTS_INFO_IS_ZERO_BALANCE) ∧
    (∀ re : Option Nat, ∀ l : Nat, 1 ≤ l → l ≤ 2 ^ 30 - 3 →
      (AccountMetaFlags.new_from ⟨re, none⟩ l).lamports_info = l + 2) ∧
    (∀ re : Option Nat, ∀ optl l : Nat,
      (AccountMetaFlags.new_from ⟨re, some optl⟩ l).lamports_info =
        LAMPORTS_INFO_HAS_OPTIONAL_FIELD) ∧
    (∀ f : AccountMetaFlags,
      f.lamports_info = 0 → f.lamports = some 0) ∧
    (∀ f : AccountMetaFlags,
      f.lamports_info = 1 → f.lamports = none) ∧
    (∀ f : AccountMetaFlags,
      2 ≤ f.lamports_info → f.lamports = some (f.lamports_info - 2)) ∧
    (∀ re : Option Nat, ∀ l : Nat, l ≤ LAMPORTS_INFO_MAX_BALANCE →
      (AccountMetaFlags.new_from ⟨re, none⟩ l).lamports = some l) := by
  have hmax : LAMPORTS_INFO_MAX_BALANCE = 2 ^ 30 - 3 := by decide
  refine ⟨?_, ?_, ?_, ?_, ?_, ?_, ?_⟩
  · intro re
    rw [new_from_lamports_info]
    simp [LAMPORTS_INFO_IS_ZERO_BALANCE]
  · intro re l h1 h2
    rw [new_from_lamports_info]
    have hne : ¬ l = 0 := by omega
    simp only [Option.isSome_none, Bool.false_eq_true, if_false, hne]
    simp only [LAMPORTS_INFO_RESERVED_VALUES]
    omega
  · intro re optl l
    rw [new_from_lamports_info]
    simp
  · intro f h
    rw [lamports_decode, h]
    simp
  · intro f h
    rw [lamports_decode, h]
    simp
  · intro f h
    rw [lamports_decode]
    have h0 : ¬ f.lamports_info = 0 := by omega
    have h1 : ¬ f.lamports_info = 1 := by omega
    simp [h0, h1]
  · intro re l hle
    rw [hmax] at hle
    rw [lamports_decode, new_from_lamports_info]
    by_cases h0 : l = 0
    · simp [h0]
    · have hinfo : (l + LAMPORTS_INFO_RESERVED_VALUES) % 2 ^ 32 = l + 2 := by
        simp only [LAMPORTS_INFO_RESERVED_VALUES]
        omega
      simp only [Option.isSome_none, Bool.false_eq_true, if_false, h0, hinfo]
      have hne0 : ¬ l + 2 = 0 := by omega
      have hne1 : ¬ l + 2 = 1 := by omega
      simp [hne0, hne1]

/-- C5 (witness): the encoding theorem evaluated at balance 5 with a
present rent-epoch optional field. -/
theorem lamports_info_encode_decode_witness :
    (AccountMetaFlags.new_from ⟨some 7, none⟩ 5).lamports = some 5 :=
  lamports_info_encode_decode.2.2.2.2.2.2 (some 7) 5 (by decide)

/-! ## Owner-deduplication table (C6)

From accounts-db/src/tiered_storage/owner.rs: `AccountOwnersTable` holds an
insertion-ordered vector `owners_vec` and a map `owners_map` from owner
address to owner index; `try_insert` returns the existing index when the
address is present and otherwise appends.  The hash map is embedded as an
association list (`List.lookup` plays the role of `HashMap::get`). -/

/-- Account addresses, embedded as natural-number identifiers. -/
abbrev Pubkey := Nat

/-- `AccountOwnersTable` of accounts-db/src/tiered_storage/owner.rs. -/
structure AccountOwnersTable where
  owners_vec : List Pubkey
  owners_map : List (Pubkey × Nat)
deriving DecidableEq

/-- `AccountOwnersTable::new()`. -/
def AccountOwnersTable.new : AccountOwnersTable :=
  { owners_vec := [], owners_map := [] }

/-- `AccountOwnersTable::try_insert(address)`: returns the updated table and
the index of the address. -/
def AccountOwnersTable.try_insert (t : AccountOwnersTable) (address : Pubkey) :
    AccountOwnersTable × Nat :=
  match t.owners_map.lookup address with
  | some index => (t, index)
  | none =>
      let index := t.owners_vec.length
      ({ owners_vec := t.owners_vec ++ [address],
         owners_map := (address, index) :: t.owners_map }, index)

/-- `AccountOwnersTable::len()`. -/
def AccountOwnersTable.len (t : AccountOwnersTable) : Nat :=
  t.owners_vec.length

/-- Runs a sequence of `try_insert` calls, collecting the returned indices. -/
def AccountOwnersTable.insertAll (t : AccountOwnersTable) :
    List Pubkey → AccountOwnersTable × List Nat
  | [] => (t, [])
  | a :: rest =>
      let r1 := t.try_insert a
      let r2 := r1.1.insertAll rest
      (r2.1, r1.2 :: r2.2)

/-- One step of first-occurrence deduplication. -/
def dedupStep (acc : List Pubkey) (a : Pubkey) : List Pubkey :=
  if a ∈ acc then acc else acc ++ [a]

/-- The distinct addresses of a list in first-insertion order. -/
def dedupFirst (l : List Pubkey) : List Pubkey :=
  l.foldl dedupStep []

/-- The coherence invariant between `owners_map` and `owners_vec`: the map
sends an address to an index exactly when the vector holds that address at
that index. -/
def TableInv (t : AccountOwnersTable) : Prop :=
  ∀ a k, t.owners_map.lookup a = some k ↔ t.owners_vec[k]? = some a

theorem tableInv_new : TableInv AccountOwnersTable.new := by
  intro a k
  simp [AccountOwnersTable.new, List.lookup]

theorem lookup_eq_none_of_not_mem (t : AccountOwnersTable) (hinv : TableInv t)
    (a : Pubkey) (h : a ∉ t.owners_vec) : t.owners_map.lookup a = none := by
  cases hcase : t.owners_map.lookup a with
  | none => rfl
  | some k => exact absurd (List.getElem?_mem ((hinv a k).mp hcase)) h

theorem lookup_eq_some_of_mem (t : AccountOwnersTable) (hinv : TableInv t)
    (a : Pubkey) (h : a ∈ t.owners_vec) :
    ∃ k, t.owners_map.lookup a = some k ∧ t.owners_vec[k]? = some a := by
  obtain ⟨n, hn⟩ := List.mem_iff_getElem?.mp h
  exact ⟨n, (hinv a n).mpr hn, hn⟩

theorem try_insert_mem (t : AccountOwnersTable) (hinv : TableInv t)
    (a : Pubkey) (h : a ∈ t.owners_vec) :
    (t.try_insert a).1 = t ∧ t.owners_vec[(t.try_insert a).2]? = some a := by
  obtain ⟨k, hk, hget⟩ := lookup_eq_some_of_mem t hinv a h
  simp [AccountOwnersTable.try_insert, hk, hget]

theorem try_insert_not_mem (t : AccountOwnersTable) (hinv : TableInv t)
    (a : Pubkey) (h : a ∉ t.owners_vec) :
    t.try_insert a =
      ({ owners_vec := t.owners_vec ++ [a],
         owners_map := (a, t.owners_vec.length) :: t.owners_map },
       t.owners_vec.length) := by
  simp [AccountOwnersTable.try_insert, lookup_eq_none_of_not_mem t hinv a h]

theorem tableInv_try_insert (t : AccountOwnersTable) (hinv : TableInv t)
    (a : Pubkey) : TableInv (t.try_insert a).1 := by
  by_cases h : a ∈ t.owners_vec
  · rw [(try_insert_mem t hinv a h).1]
    exact hinv
  · rw [try_insert_not_mem t hinv a h]
    intro a' k
    by_cases heq : a' = a
    · subst heq
      simp only [List.lookup, beq_self_eq_true]
      constructor
      · intro hl
        have hk : k = t.owners_vec.length := by
          cases hl
          rfl
        subst hk
        exact List.getElem?_concat_length _ _
      · intro hget
        rcases Nat.lt_trichotomy k t.owners_vec.length with hlt | heq2 | hgt
        · rw [List.getElem?_append_left hlt] at hget
          exact absurd (List.getElem?_mem hget) h
        · simp [heq2]
        · have : (t.owners_vec ++ [a']).length ≤ k := by
            simp only [List.length_append, List.length_singleton]
            omega
          rw [List.getElem?_eq_none this] at hget
          cases hget
    · have hbeq : (a' == a) = false := by
        simp [heq]
      simp only [List.lookup, hbeq]
      rw [hinv a' k]
      constructor
      · intro hget
        have hk : k < t.owners_vec.length := by
          obtain ⟨hlt, -⟩ := List.getElem?_eq_some.mp hget
          exact hlt
        rw [List.getElem?_append_left hk]
        exact hget
      · intro hget
        rcases Nat.lt_trichotomy k t.owners_vec.length with hlt | heq2 | hgt
        · rwa [List.getElem?_append_left hlt] at hget
        · subst heq2
          rw [List.getElem?_concat_length] at hget
          cases hget
          exact absurd rfl heq
        · have : (t.owners_vec ++ [a]).length ≤ k := by
            simp only [List.length_append, List.length_singleton]
            omega
          rw [List.getElem?_eq_none this] at hget
          cases hget

theorem try_insert_vec (t : AccountOwnersTable) (hinv : TableInv t)
    (a : Pubkey) :
    (t.try_insert a).1.owners_vec = dedupStep t.owners_vec a := by
  unfold dedupStep
  by_cases h : a ∈ t.owners_vec
  · rw [(try_insert_mem t hinv a h).1, if_pos h]
  · rw [try_insert_not_mem t hinv a h, if_neg h]

theorem try_insert_ret_get (t : AccountOwnersTable) (hinv : TableInv t)
    (a : Pubkey) :
    (t.try_insert a).1.owners_vec[(t.try_insert a).2]? = some a := by
  by_cases h : a ∈ t.owners_vec
  · obtain ⟨h1, h2⟩ := try_insert_mem t hinv a h
    rw [h1]
    exact h2
  · rw [try_insert_not_mem t hinv a h]
    exact List.getElem?_concat_length _ _

theorem mem_dedupStep (acc : List Pubkey) (x a : Pubkey) :
    a ∈ dedupStep acc x ↔ a ∈ acc ∨ a = x := by
  unfold dedupStep
  by_cases h : x ∈ acc
  · rw [if_pos h]
    constructor
    · exact Or.inl
    · rintro (ha | rfl)
      · exact ha
      · exact h
  · rw [if_neg h]
    simp

theorem nodup_dedupStep (acc : List Pubkey) (x : Pubkey) (h : acc.Nodup) :
    (dedupStep acc x).Nodup := by
  unfold dedupStep
  by_cases hx : x ∈ acc
  · rwa [if_pos hx]
  · rw [if_neg hx]
    rw [List.nodup_append]
    refine ⟨h, List.nodup_singleton x, ?_⟩
    intro b hb hbx
    rw [List.mem_singleton] at hbx
    subst hbx
    exact hx hb

theorem getElem?_dedupStep (acc : List Pubkey) (x : Pubkey) (k : Nat)
    (a : Pubkey) (h : acc[k]? = some a) : (dedupStep acc x)[k]? = some a := by
  unfold dedupStep
  by_cases hx : x ∈ acc
  · rwa [if_pos hx]
  · rw [if_neg hx]
    have hk : k < acc.length := (List.getElem?_eq_some.mp h).1
    rwa [List.getElem?_append_left hk]

theorem foldl_dedupStep_nodup (l : List Pubkey) :
    ∀ acc : List Pubkey, acc.Nodup → (l.foldl dedupStep acc).Nodup := by
  induction l with
  | nil => intro acc h; simpa using h
  | cons x rest ih =>
      intro acc h
      simpa using ih (dedupStep acc x) (nodup_dedupStep acc x h)

theorem mem_foldl_dedupStep (l : List Pubkey) :
    ∀ acc : List Pubkey, ∀ a, a ∈ l.foldl dedupStep acc ↔ a ∈ acc ∨ a ∈ l := by
  induction l with
  | nil => intro acc a; simp
  | cons x rest ih =>
      intro acc a
      simp only [List.foldl_cons]
      rw [ih (dedupStep acc x) a, mem_dedupStep]
      simp only [List.mem_cons]
      tauto

theorem getElem?_foldl_dedupStep (l : List Pubkey) :
    ∀ acc : List Pubkey, ∀ k : Nat, ∀ a : Pubkey, acc[k]? = some a →
      (l.foldl dedupStep acc)[k]? = some a := by
  induction l with
  | nil => intro acc k a h; simpa using h
  | cons x rest ih =>
      intro acc k a h
      simpa using ih (dedupStep acc x) k a (getElem?_dedupStep acc x k a h)

theorem insertAll_inv (l : List Pubkey) :
    ∀ t : AccountOwnersTable, TableInv t → TableInv (t.insertAll l).1 := by
  induction l with
  | nil => intro t h; exact h
  | cons a rest ih =>
      intro t h
      exact ih (t.try_insert a).1 (tableInv_try_insert t h a)

theorem insertAll_vec (l : List Pubkey) :
    ∀ t : AccountOwnersTable, TableInv t →
      ((t.insertAll l).1).owners_vec = l.foldl dedupStep t.owners_vec := by
  induction l with
  | nil => intro t _; rfl
  | cons a rest ih =>
      intro t h
      have h1 := ih (t.try_insert a).1 (tableInv_try_insert t h a)
      simp only [AccountOwnersTable.insertAll, List.foldl_cons]
      rw [h1, try_insert_vec t h a]

theorem insertAll_results_len (l : List Pubkey) :
    ∀ t : AccountOwnersTable, ((t.insertAll l).2).length = l.length := by
  induction l with
  | nil => intro t; rfl
  | cons a rest ih =>
      intro t
      simp only [AccountOwnersTable.insertAll, List.length_cons]
      rw [ih (t.try_insert a).1]

theorem insertAll_results_point (l : List Pubkey) :
    ∀ t : AccountOwnersTable, TableInv t → ∀ j k : Nat, ((t.insertAll l).2)[j]? = some k →
      ∃ a, l[j]? = some a ∧ ((t.insertAll l).1).owners_vec[k]? = some a := by
  induction l with
  | nil => intro t _ j k h; simp [AccountOwnersTable.insertAll] at h
  | cons a rest ih =>
      intro t hinv j k h
      have hinv1 := tableInv_try_insert t hinv a
      cases j with
      | zero =>
          have hk : k = (t.try_insert a).2 := by
            simp only [AccountOwnersTable.insertAll] at h
            rw [List.getElem?_cons_zero] at h
            cases h
            rfl
          subst hk
          refine ⟨a, by simp, ?_⟩
          have hbase := try_insert_ret_get t hinv a
          have hvec := insertAll_vec rest (t.try_insert a).1 hinv1
          simp only [AccountOwnersTable.insertAll]
          rw [hvec]
          exact getElem?_foldl_dedupStep rest _ _ a hbase
      | succ j =>
          have h2 : (((t.try_insert a).1.insertAll rest).2)[j]? = some k := by
            simpa [AccountOwnersTable.insertAll] using h
          obtain ⟨b, hb1, hb2⟩ := ih (t.try_insert a).1 hinv1 j k h2
          exact ⟨b, by simpa using hb1, by simpa [AccountOwnersTable.insertAll] using hb2⟩

/-- C6: running any sequence of owner-address insertions from the empty
table, `try_insert` realizes first-occurrence deduplication: the table's
vector is exactly the distinct addresses in first-insertion order, each
call returns the position of its address among the distinct addresses
(uniquely determined, since the vector contains no duplicates), every
returned index is below the table length, the table length is the number
of distinct addresses inserted, and on the resulting table a present
address is returned without growth while a fresh address is appended and
assigned the next index. -/
theorem try_insert_dedup_spec (l : List Pubkey) :
    (AccountOwnersTable.new.insertAll l).1.owners_vec = dedupFirst l ∧
    (AccountOwnersTable.new.insertAll l).2.length = l.length ∧
    (∀ j k : Nat, (AccountOwnersTable.new.insertAll l).2[j]? = some k →
      ∃ a, l[j]? = some a ∧ (dedupFirst l)[k]? = some a) ∧
    (∀ k k' : Nat, ∀ a : Pubkey, (dedupFirst l)[k]? = some a →
      (dedupFirst l)[k']? = some a → k = k') ∧
    (∀ k ∈ (AccountOwnersTable.new.insertAll l).2,
      k < (AccountOwnersTable.new.insertAll l).1.len) ∧
    (AccountOwnersTable.new.insertAll l).1.len = (dedupFirst l).length ∧
    (∀ a, a ∈ dedupFirst l ↔ a ∈ l) ∧
    (dedupFirst l).Nodup ∧
    (∀ a, a ∈ (AccountOwnersTable.new.insertAll l).1.owners_vec →
      ((AccountOwnersTable.new.insertAll l).1.try_insert a).1 =
        (AccountOwnersTable.new.insertAll l).1) ∧
    (∀ a, a ∉ (AccountOwnersTable.new.insertAll l).1.owners_vec →
      ((AccountOwnersTable.new.insertAll l).1.try_insert a).1.owners_vec =
          (AccountOwnersTable.new.insertAll l).1.owners_vec ++ [a] ∧
        ((AccountOwnersTable.new.insertAll l).1.try_insert a).2 =
          (AccountOwnersTable.new.insertAll l).1.owners_vec.length) := by
  have hinv0 := tableInv_new
  have hinv := insertAll_inv l AccountOwnersTable.new hinv0
  have hvec : (AccountOwnersTable.new.insertAll l).1.owners_vec = dedupFirst l := by
    rw [insertAll_vec l AccountOwnersTable.new hinv0]
    rfl
  have hnodup : (dedupFirst l).Nodup :=
    foldl_dedupStep_nodup l [] List.nodup_nil
  have hpoint := insertAll_results_point l AccountOwnersTable.new hinv0
  refine ⟨hvec, insertAll_results_len l AccountOwnersTable.new, ?_, ?_, ?_, ?_, ?_, hnodup, ?_, ?_⟩
  · intro j k h
    obtain ⟨a, ha1, ha2⟩ := hpoint j k h
    rw [hvec] at ha2
    exact ⟨a, ha1, ha2⟩
  · intro k k' a h1 h2
    have hk : k < (dedupFirst l).length := (List.getElem?_eq_some.mp h1).1
    exact List.getElem?_inj hk hnodup (h1.trans h2.symm)
  · intro k hk
    obtain ⟨j, hj⟩ := List.mem_iff_getElem?.mp hk
    obtain ⟨a, -, ha⟩ := hpoint j k hj
    unfold AccountOwnersTable.len
    exact (List.getElem?_eq_some.mp ha).1
  · unfold AccountOwnersTable.len
    rw [hvec]
  · intro a
    have := mem_foldl_dedupStep l [] a
    simpa [dedupFirst] using this
  · intro a ha
    exact (try_insert_mem _ hinv a ha).1
  · intro a ha
    rw [try_insert_not_mem _ hinv a ha]
    exact ⟨rfl, rfl⟩

/-- C6 (witness): the deduplication theorem evaluated on the concrete
insertion sequence `[5, 3, 5, 9, 3]`, whose distinct addresses in
first-insertion order are `[5, 3, 9]`; the third insertion (address 5,
already present) is assigned index 0 and the index is below the table
length 3. -/
theorem try_insert_dedup_spec_witness :
    (∃ a, [5, 3, 5, 9, 3][2]? = some a ∧ (dedupFirst [5, 3, 5, 9, 3])[0]? = some a) ∧
    0 < (AccountOwnersTable.new.insertAll [5, 3, 5, 9, 3]).1.len := by
  have h := try_insert_dedup_spec [5, 3, 5, 9, 3]
  refine ⟨h.2.2.1 2 0 (by decide), h.2.2.2.2.1 0 (by decide)⟩

/-! ## Hot account meta (C7)

From runtime/src/tiered_storage/hot.rs: `MAX_HOT_PADDING`,
`MAX_HOT_OWNER_INDEX`, the `HotMetaPackedFields` bitfield
(`padding: B3, owner_index: B29`; the first declared member occupies the
least significant bits), and the `HotAccountMeta` builder functions.
A builder call that panics is embedded as `none`. -/

/-- `MAX_HOT_PADDING`: the maximum number of padding bytes in a hot entry. -/
def MAX_HOT_PADDING : Nat := 7

/-- `MAX_HOT_OWNER_INDEX`: `(1 << 29) - 1`. -/
def MAX_HOT_OWNER_INDEX : Nat := 2 ^ 29 - 1

/-- The `HotMetaPackedFields` 32-bit word: `padding` occupies bits 0..2 and
`owner_index` occupies bits 3..31. -/
structure HotMetaPackedFields where
  word : Nat
deriving DecidableEq

/-- `HotMetaPackedFields::default()`: the all-zero word. -/
def HotMetaPackedFields.default : HotMetaPackedFields := ⟨0⟩

/-- The `padding()` accessor: the low 3 bits. -/
def HotMetaPackedFields.padding (p : HotMetaPackedFields) : Nat :=
  p.word % 8

/-- The `owner_index()` accessor: the 29 bits above the padding. -/
def HotMetaPackedFields.owner_index (p : HotMetaPackedFields) : Nat :=
  p.word / 8 % 2 ^ 29

/-- The `set_padding(v)` setter: replaces the low 3 bits.  Each call site
guards `v ≤ MAX_HOT_PADDING` (the bitfield setter rejects wider values). -/
def HotMetaPackedFields.set_padding (p : HotMetaPackedFields) (v : Nat) :
    HotMetaPackedFields :=
  ⟨p.word / 8 * 8 + v % 8⟩

/-- The `set_owner_index(v)` setter: replaces bits 3..31.  Each call site
guards `v ≤ MAX_HOT_OWNER_INDEX` (the bitfield setter rejects wider
values). -/
def HotMetaPackedFields.set_owner_index (p : HotMetaPackedFields) (v : Nat) :
    HotMetaPackedFields :=
  ⟨v % 2 ^ 29 * 8 + p.word % 8⟩

/-- `HotAccountMeta` of runtime/src/tiered_storage/hot.rs: lamports, the
packed 32-bit word, and the 32-bit flags word. -/
structure HotAccountMeta where
  lamports : Nat
  packed_fields : HotMetaPackedFields
  flags : Nat
deriving DecidableEq

/-- `HotAccountMeta::new()`. -/
def HotAccountMeta.new : HotAccountMeta :=
  { lamports := 0, packed_fields := HotMetaPackedFields.default, flags := 0 }

/-- `with_lamports`. -/
def HotAccountMeta.with_lamports (m : HotAccountMeta) (lamports : Nat) :
    HotAccountMeta :=
  { m with lamports := lamports }

/-- `with_account_data_padding`: panics (`none`) when
`padding > MAX_HOT_PADDING`. -/
def HotAccountMeta.with_account_data_padding (m : HotAccountMeta)
    (padding : Nat) : Option HotAccountMeta :=
  if padding > MAX_HOT_PADDING then
    none
  else
    some { m with packed_fields := m.packed_fields.set_padding padding }

/-- `with_owner_index`: panics (`none`) when
`owner_index > MAX_HOT_OWNER_INDEX`. -/
def HotAccountMeta.with_owner_index (m : HotAccountMeta)
    (owner_index : Nat) : Option HotAccountMeta :=
  if owner_index > MAX_HOT_OWNER_INDEX then
    none
  else
    some { m with packed_fields := m.packed_fields.set_owner_index owner_index }

/-- The `account_data_padding()` accessor. -/
def HotAccountMeta.account_data_padding (m : HotAccountMeta) : Nat :=
  m.packed_fields.padding

/-- The `owner_index()` accessor. -/
def HotAccountMeta.owner_index (m : HotAccountMeta) : Nat :=
  m.packed_fields.owner_index

/-- C7: the hot account-meta builder enforces the bit-field limits as hard
failures — `with_account_data_padding p` panics exactly when `p > 7` and
`with_owner_index k` panics exactly when `k > 2 ^ 29 - 1` — and for every
`p ≤ 7` and `k ≤ 2 ^ 29 - 1` the two calls succeed and reading
`account_data_padding()` and `owner_index()` back from the packed 32-bit
word returns exactly `p` and `k`. -/
theorem hot_meta_builder_limits (m : HotAccountMeta) (p k : Nat) :
    (m.with_account_data_padding p = none ↔ 7 < p) ∧
    (m.with_owner_index k = none ↔ 2 ^ 29 - 1 < k) ∧
    (p ≤ 7 → k ≤ 2 ^ 29 - 1 →
      ∃ m' : HotAccountMeta,
        (m.with_account_data_padding p).bind
            (fun m1 => m1.with_owner_index k) = some m' ∧
        m'.account_data_padding = p ∧ m'.owner_index = k) := by
  have h29 : (2 : Nat) ^ 29 = 536870912 := by norm_num
  refine ⟨?_, ?_, ?_⟩
  · unfold HotAccountMeta.with_account_data_padding MAX_HOT_PADDING
    by_cases h : 7 < p <;> simp [h]
  · unfold HotAccountMeta.with_owner_index MAX_HOT_OWNER_INDEX
    by_cases h : 2 ^ 29 - 1 < k <;> simp [h]
  · intro hp hk
    have hnp : ¬ MAX_HOT_PADDING < p := by
      unfold MAX_HOT_PADDING
      omega
    have hnk : ¬ MAX_HOT_OWNER_INDEX < k := by
      unfold MAX_HOT_OWNER_INDEX
      omega
    have h1 : m.with_account_data_padding p =
        some { m with packed_fields := m.packed_fields.set_padding p } := by
      simp [HotAccountMeta.with_account_data_padding, hnp]
    have h2 : ∀ m1 : HotAccountMeta, m1.with_owner_index k =
        some { m1 with packed_fields := m1.packed_fields.set_owner_index k } := by
      intro m1
      simp [HotAccountMeta.with_owner_index, hnk]
    refine ⟨{ m with packed_fields :=
        (m.packed_fields.set_padding p).set_owner_index k }, ?_, ?_, ?_⟩
    · rw [h1]
      exact h2 _
    · simp only [HotAccountMeta.account_data_padding,
        HotMetaPackedFields.padding, HotMetaPackedFields.set_owner_index,
        HotMetaPackedFields.set_padding, h29]
      omega
    · simp only [HotAccountMeta.owner_index,
        HotMetaPackedFields.owner_index, HotMetaPackedFields.set_owner_index,
        HotMetaPackedFields.set_padding, h29]
      omega

/-- C7 (witness): the builder theorem evaluated at padding 5 and owner
index 1000 starting from `HotAccountMeta::new()`. -/
theorem hot_meta_builder_limits_witness :
    ∃ m' : HotAccountMeta,
      (HotAccountMeta.new.with_account_data_padding 5).bind
          (fun m1 => m1.with_owner_index 1000) = some m' ∧
      m'.account_data_padding = 5 ∧ m'.owner_index = 1000 :=
  (hot_meta_builder_limits HotAccountMeta.new 5 1000).2.2 (by decide) (by decide)

/-! ## Storage handle drop (C3)

From runtime/src/tiered_storage.rs: `impl Drop for TieredStorage` calls
`fs_err::remove_file(&self.path)` and panics when removal fails.  The
filesystem is embedded as the list of existing paths, and a panic as
`none`. -/

/-- The filesystem contents: the paths that currently exist.  Paths are
embedded as naturals; a well-formed filesystem lists each path once. -/
abbrev FsState := List Nat

/-- `fs_err::remove_file(path)`: fails (`none`) when the path is absent. -/
def remove_file (fs : FsState) (path : Nat) : Option FsState :=
  if path ∈ fs then some (fs.erase path) else none

/-- The `TieredStorage` handle state relevant to `Drop`: the backing path
and whether the reader has been set — which is exactly the state a
completed (successfully finalized) `write_accounts` leaves behind. -/
structure TieredStorageHandle where
  path : Nat
  reader_set : Bool
deriving DecidableEq

/-- `impl Drop for TieredStorage`: removes the backing file, panicking
(`none`) when removal fails.  The implementation reads only `self.path`:
there is no detach flag and `reader_set` is never consulted. -/
def TieredStorage.drop (self : TieredStorageHandle) (fs : FsState) :
    Option FsState :=
  remove_file fs self.path

/-- C3 (counterexample): a storage handle whose finalization completed (the
reader is set) and whose backing file exists still has that file removed
when the handle is dropped: with path 0 on the filesystem `[0]`, dropping
returns the filesystem `[]`, which no longer contains the file. -/
theorem drop_removes_finalized_file :
    TieredStorage.drop ⟨0, true⟩ [0] = some [] ∧ (0 : Nat) ∉ ([] : List Nat) := by
  decide

/-- C3 (amended): dropping a `TieredStorage` handle always unlinks the
backing file, whether or not finalization completed — there is no detach on
successful finalization.  When the file exists, dropping removes it; when
it does not, the drop panics; and the outcome never depends on the
finalization state. -/
theorem drop_always_removes (self : TieredStorageHandle) (fs : FsState)
    (hnodup : fs.Nodup) :
    (self.path ∈ fs →
      TieredStorage.drop self fs = some (fs.erase self.path) ∧
      self.path ∉ fs.erase self.path) ∧
    (self.path ∉ fs → TieredStorage.drop self fs = none) ∧
    TieredStorage.drop self fs =
      TieredStorage.drop ⟨self.path, !self.reader_set⟩ fs := by
  refine ⟨?_, ?_, rfl⟩
  · intro hmem
    refine ⟨by simp [TieredStorage.drop, remove_file, hmem], ?_⟩
    intro hcontra
    exact absurd ((hnodup.mem_erase_iff).mp hcontra).1 (by simp)
  · intro hmem
    simp [TieredStorage.drop, remove_file, hmem]

/-- C3 (amended, witness): the drop theorem evaluated at the finalized
handle with path 0 over the one-file filesystem `[0]`. -/
theorem drop_always_removes_witness :
    TieredStorage.drop ⟨0, true⟩ [0] = some (([0] : List Nat).erase 0) ∧
    (0 : Nat) ∉ (([0] : List Nat).erase 0) :=
  (drop_always_removes ⟨0, true⟩ [0] (by decide)).1 (by decide)

/-! ## Read-only file open (C2)

From accounts-db/src/tiered_storage/file.rs: `TieredReadableFile::new`
checks the trailing magic number and then the BLAKE3 content hash before
returning the handle (so both checks complete before any account query can
be serviced).  The file is embedded as its byte list and BLAKE3 as an
arbitrary function from byte lists to 32-byte digests, applied to the
bytes accumulated by the chunked streaming loop. -/

/-- `FOOTER_TAIL_SIZE` (imported from the footer module): 24 bytes. -/
def FOOTER_TAIL_SIZE : Nat := 24

/-- `std::mem::size_of::<Hash>()`: 32 bytes. -/
def HASH_SIZE : Nat := 32

/-- The `TieredStorageError` variants exercised by the embedded code paths
(accounts-db/src/tiered_storage/error.rs is referenced through its use
sites). -/
inductive TieredStorageError where
  | Io : TieredStorageError
  | MagicNumberMismatch (expected observed : Nat) : TieredStorageError
  | FileHashMismatch (computed stored : List Nat) : TieredStorageError
  | Unsupported : TieredStorageError
  | AttemptToUpdateReadOnly (path : Nat) : TieredStorageError
deriving DecidableEq

/-- `TieredReadableFile::check_magic_number`: seeks 8 bytes from the end,
reads the magic and compares it against `FILE_MAGIC_NUMBER`; a file shorter
than the seek target fails with an I/O error. -/
def check_magic_number (bytes : List Nat) : Except TieredStorageError Unit :=
  if bytes.length < 8 then
    .error .Io
  else
    let observed := u64FromLeBytes (bytes.drop (bytes.length - 8))
    if observed ≠ FILE_MAGIC_NUMBER then
      .error (.MagicNumberMismatch FILE_MAGIC_NUMBER observed)
    else
      .ok ()

/-- The chunked streaming loop of `check_file_hash`: starting at `offset`,
reads blocks of `min 4096 (hashed_len - offset)` bytes and feeds them to
the hasher; the result is the concatenation of all bytes fed. -/
def read_chunks (bytes : List Nat) (offset hashed_len : Nat) : List Nat :=
  if _h : offset < hashed_len then
    (bytes.drop offset).take (min 4096 (hashed_len - offset)) ++
      read_chunks bytes (offset + min 4096 (hashed_len - offset)) hashed_len
  else
    []
termination_by hashed_len - offset
decreasing_by
  simp_wf
  omega

/-- `TieredReadableFile::check_file_hash`, parameterized by the BLAKE3
digest function `hashfn`: hashes the byte prefix of length
`len - 32 - 24` streamed in 4-KiB chunks from offset 0, then reads the
stored 32-byte hash that follows the prefix and compares.  (In the code a
file too short for the 32-byte read fails with an I/O error; the subtraction
underflow cases are outside the well-formed files considered by the
theorems.) -/
def check_file_hash (hashfn : List Nat → List Nat) (bytes : List Nat) :
    Except TieredStorageError Unit :=
  if bytes.length < bytes.length - HASH_SIZE - FOOTER_TAIL_SIZE + HASH_SIZE then
    .error .Io
  else if hashfn (read_chunks bytes 0 (bytes.length - HASH_SIZE - FOOTER_TAIL_SIZE)) =
      (bytes.drop (bytes.length - HASH_SIZE - FOOTER_TAIL_SIZE)).take HASH_SIZE then
    .ok ()
  else
    .error (.FileHashMismatch
      (hashfn (read_chunks bytes 0 (bytes.length - HASH_SIZE - FOOTER_TAIL_SIZE)))
      ((bytes.drop (bytes.length - HASH_SIZE - FOOTER_TAIL_SIZE)).take HASH_SIZE))

/-- `TieredReadableFile::new`: the magic-number check runs first and the
content-hash check second; only when both pass is the handle returned. -/
def TieredReadableFile.new (hashfn : List Nat → List Nat)
    (bytes : List Nat) : Except TieredStorageError Unit :=
  match check_magic_number bytes with
  | .error e => .error e
  | .ok () => check_file_hash hashfn bytes

/-- Helper: the chunked streaming loop reads exactly the byte range
`[offset, hashed_len)` in order. -/
theorem read_chunks_eq (bytes : List Nat) (offset hashed_len : Nat) :
    read_chunks bytes offset hashed_len =
      (bytes.drop offset).take (hashed_len - offset) := by
  have H : ∀ fuel offset2, hashed_len - offset2 ≤ fuel →
      read_chunks bytes offset2 hashed_len =
        (bytes.drop offset2).take (hashed_len - offset2) := by
    intro fuel
    induction fuel with
    | zero =>
        intro offset2 hle
        have h : ¬ offset2 < hashed_len := by omega
        rw [read_chunks, dif_neg h]
        have h0 : hashed_len - offset2 = 0 := by omega
        rw [h0, List.take_zero]
    | succ n ih =>
        intro offset2 hle
        by_cases h : offset2 < hashed_len
        · rw [read_chunks, dif_pos h]
          have hrec := ih (offset2 + min 4096 (hashed_len - offset2)) (by omega)
          rw [hrec]
          have hdrop : bytes.drop (offset2 + min 4096 (hashed_len - offset2)) =
              (bytes.drop offset2).drop (min 4096 (hashed_len - offset2)) := by
            rw [List.drop_drop]
          rw [hdrop]
          have hsub : hashed_len - (offset2 + min 4096 (hashed_len - offset2)) =
              hashed_len - offset2 - min 4096 (hashed_len - offset2) := by
            omega
          rw [hsub]
          have hsplit : hashed_len - offset2 =
              min 4096 (hashed_len - offset2) +
                (hashed_len - offset2 - min 4096 (hashed_len - offset2)) := by
            omega
          conv_rhs => rw [hsplit]
          exact (List.take_add _ _ _).symm
        · rw [read_chunks, dif_neg h]
          have h0 : hashed_len - offset2 = 0 := by omega
          rw [h0, List.take_zero]
  exact H (hashed_len - offset) offset le_rfl

/-- C2: opening a file read-only succeeds exactly when the trailing 8 bytes
decode to the expected magic number and the digest of the byte prefix
`[0, len - 32 - 24)` — streamed in 4-KiB chunks from offset 0 — equals the
stored 32-byte hash that follows that prefix; a magic difference yields
`MagicNumberMismatch` carrying the expected and observed values (the magic
check runs before the hash check, so this error wins even when the hash
also differs), and otherwise a hash difference yields `FileHashMismatch`
carrying the computed and stored hashes. -/
theorem tiered_readable_file_new_spec (hashfn : List Nat → List Nat)
    (bytes : List Nat) (hlen : 56 ≤ bytes.length) :
    (TieredReadableFile.new hashfn bytes = .ok () ↔
      (u64FromLeBytes (bytes.drop (bytes.length - 8)) = FILE_MAGIC_NUMBER ∧
        hashfn (bytes.take (bytes.length - 32 - 24)) =
          (bytes.drop (bytes.length - 32 - 24)).take 32)) ∧
    (u64FromLeBytes (bytes.drop (bytes.length - 8)) ≠ FILE_MAGIC_NUMBER →
      TieredReadableFile.new hashfn bytes =
        .error (.MagicNumberMismatch FILE_MAGIC_NUMBER
          (u64FromLeBytes (bytes.drop (bytes.length - 8))))) ∧
    (u64FromLeBytes (bytes.drop (bytes.length - 8)) = FILE_MAGIC_NUMBER →
      hashfn (bytes.take (bytes.length - 32 - 24)) ≠
        (bytes.drop (bytes.length - 32 - 24)).take 32 →
      TieredReadableFile.new hashfn bytes =
        .error (.FileHashMismatch
          (hashfn (bytes.take (bytes.length - 32 - 24)))
          ((bytes.drop (bytes.length - 32 - 24)).take 32))) := by
  have h8 : ¬ bytes.length < 8 := by omega
  have hchunks : read_chunks bytes 0 (bytes.length - 32 - 24) =
      bytes.take (bytes.length - 32 - 24) := by
    rw [read_chunks_eq]
    simp
  have hio : ¬ bytes.length < bytes.length - 32 - 24 + 32 := by
    omega
  have hfh : check_file_hash hashfn bytes =
      (if hashfn (bytes.take (bytes.length - 32 - 24)) =
          (bytes.drop (bytes.length - 32 - 24)).take 32 then
        Except.ok ()
      else
        Except.error (.FileHashMismatch
          (hashfn (bytes.take (bytes.length - 32 - 24)))
          ((bytes.drop (bytes.length - 32 - 24)).take 32))) := by
    unfold check_file_hash
    simp only [HASH_SIZE, FOOTER_TAIL_SIZE]
    rw [hchunks, if_neg hio]
  by_cases hmagic : u64FromLeBytes (bytes.drop (bytes.length - 8)) = FILE_MAGIC_NUMBER
  · have hcm : check_magic_number bytes = .ok () := by
      unfold check_magic_number
      rw [if_neg h8]
      simp [hmagic]
    have hnew : TieredReadableFile.new hashfn bytes = check_file_hash hashfn bytes := by
      unfold TieredReadableFile.new
      rw [hcm]
    refine ⟨?_, ?_, ?_⟩
    · rw [hnew, hfh]
      by_cases hh : hashfn (bytes.take (bytes.length - 32 - 24)) =
          (bytes.drop (bytes.length - 32 - 24)).take 32
      · simp [hh, hmagic]
      · simp [hh, hmagic]
    · intro hcontra
      exact absurd hmagic hcontra
    · intro _ hh
      rw [hnew, hfh, if_neg hh]
  · have hcm : check_magic_number bytes =
        .error (.MagicNumberMismatch FILE_MAGIC_NUMBER
          (u64FromLeBytes (bytes.drop (bytes.length - 8)))) := by
      unfold check_magic_number
      rw [if_neg h8]
      simp [hmagic]
    have hnew : TieredReadableFile.new hashfn bytes =
        .error (.MagicNumberMismatch FILE_MAGIC_NUMBER
          (u64FromLeBytes (bytes.drop (bytes.length - 8)))) := by
      unfold TieredReadableFile.new
      rw [hcm]
    refine ⟨?_, ?_, ?_⟩
    · rw [hnew]
      constructor
      · intro hcontra
        cases hcontra
      · rintro ⟨hm, -⟩
        exact absurd hm hmagic
    · intro _
      exact hnew
    · intro hm
      exact absurd hm hmagic

/-- C2 (witness): the open theorem evaluated on a concrete 56-byte file —
32 zero bytes of stored hash, a 16-byte tail prefix, and the magic trailer
— with a digest function returning 32 zero bytes on the empty prefix; the
open succeeds. -/
theorem tiered_readable_file_new_spec_witness :
    TieredReadableFile.new (fun _ => List.replicate 32 0)
      (List.replicate 48 0 ++ anzaTechBytes) = .ok () :=
  ((tiered_readable_file_new_spec (fun _ => List.replicate 32 0)
      (List.replicate 48 0 ++ anzaTechBytes) (by decide)).1).mpr
    (by constructor <;> decide)

/-! ## The writer (C1)

From accounts-db/src/tiered_storage/writer.rs:
`TieredStorageWriter::write_accounts` iterates over the input positions
`skip..len`, writes one account block per position (`write_single_account`),
records one index entry per block at the cumulative byte offset, then writes
the index block (addresses then offsets, 40 bytes per entry), the owners
block (32 bytes per owner), and the footer — and then returns
`Err(TieredStorageError::Unsupported())`.

The account block bytes are assembled by `ByteBlockWriter` and the optional
fields by `AccountMetaOptionalFields::new_from_fields`; neither is among the
repository files, so their byte-level sizing is modelled from the spec
(sections 3.1, 4.2 and 6.1): an aligned-raw block is the concatenation of
the 16-byte meta, the data, the padding, and the present optional fields
(`rent_epoch` 8 bytes, `account_hash` 32 bytes, `write_version` 8 bytes),
where a field is absent when its value is the `u64::MAX` sentinel (for
`rent_epoch` and `write_version`) or the all-zero hash. -/

/-- The `u64::MAX` sentinel. -/
def U64_MAX : Nat := 2 ^ 64 - 1

/-- `Hash::default()`: the all-zero 32-byte digest. -/
def ZERO_HASH : List Nat := List.replicate 32 0

/-- The account fields the writer reads from a `ReadableAccount`. -/
structure AccountInput where
  lamports : Nat
  owner : Pubkey
  rent_epoch : Nat
  data : List Nat
deriving DecidableEq

/-- One entry of a `StorableAccountsWithHashesAndWriteVersions` batch, as
produced by its `get(i)`: the (possibly absent) account, its address, its
hash and its write version. -/
structure StorableEntry where
  account : Option AccountInput
  address : Pubkey
  hash : List Nat
  write_version : Nat
deriving DecidableEq

/-- `get_account_fields`: the lamports, owner, rent epoch and data of the
account, or the defaults `(0, Pubkey::default(), u64::MAX, &[])` when the
account is `None`. -/
def get_account_fields (account : Option AccountInput) :
    Nat × Pubkey × Nat × List Nat :=
  match account with
  | some a => (a.lamports, a.owner, a.rent_epoch, a.data)
  | none => (0, 0, U64_MAX, [])

/-- Modelled from the spec: the optional fields record built by
`AccountMetaOptionalFields::new_from_fields(rent_epoch, account_hash,
write_version)` (the function is referenced by the writer but its module is
not among the repository files).  A sentinel value marks a field absent:
`u64::MAX` for `rent_epoch` and `write_version`, the zero digest for
`account_hash`. -/
structure WriterOptionalFields where
  rent_epoch : Option Nat
  account_hash : Option (List Nat)
  write_version : Option Nat
deriving DecidableEq

/-- Modelled from the spec: `AccountMetaOptionalFields::new_from_fields`. -/
def WriterOptionalFields.new_from_fields (rent_epoch : Nat)
    (account_hash : List Nat) (write_version : Nat) : WriterOptionalFields :=
  { rent_epoch := if rent_epoch = U64_MAX then none else some rent_epoch,
    account_hash := if account_hash = ZERO_HASH then none else some account_hash,
    write_version := if write_version = U64_MAX then none else some write_version }

/-- Modelled from the spec: the persisted size of the optional fields —
8 bytes for `rent_epoch`, 32 for `account_hash`, 8 for `write_version`,
each only when present. -/
def WriterOptionalFields.size (f : WriterOptionalFields) : Nat :=
  (if f.rent_epoch.isSome then 8 else 0) +
    (if f.account_hash.isSome then 32 else 0) +
    (if f.write_version.isSome then 8 else 0)

/-- `std::mem::size_of::<HotAccountMeta>()`: 16 bytes (asserted by the
`test_hot_account_meta_layout` test of hot.rs). -/
def HOT_ACCOUNT_META_SIZE : Nat := 16

/-- The byte length of the account block `write_single_account` persists
for one batch entry: meta, data, padding, optional fields, concatenated
(the aligned-raw `ByteBlockWriter` encoding; modelled from the spec). -/
def stored_block_len (entry : StorableEntry) : Nat :=
  let fields := get_account_fields entry.account
  let account_data := fields.2.2.2
  let optional_fields := WriterOptionalFields.new_from_fields
    fields.2.2.1 entry.hash entry.write_version
  HOT_ACCOUNT_META_SIZE + account_data.length +
    accountDataPaddingFor account_data.length + optional_fields.size

/-- `write_single_account`: persists one account block, inserts the owner
into the owners table, and returns the stored size. -/
def write_single_account (entry : StorableEntry)
    (owners_table : AccountOwnersTable) : Nat × AccountOwnersTable :=
  let fields := get_account_fields entry.account
  let owner := fields.2.1
  (stored_block_len entry, (owners_table.try_insert owner).1)

/-- `AccountIndexWriterEntry` of accounts-db/src/tiered_storage/index.rs. -/
structure AccountIndexWriterEntry where
  address : Pubkey
  block_offset : Nat
  intra_block_offset : Nat
deriving DecidableEq

/-- The footer fields the writer fills in. -/
structure TieredStorageFooter where
  account_entry_count : Nat
  account_index_offset : Nat
  owners_offset : Nat
deriving DecidableEq

/-- `StoredAccountInfo` (modelled from the spec: the struct lives in the
account-storage module, outside the repository files): the `(offset, size)`
pair returned per stored account. -/
structure StoredAccountInfo where
  offset : Nat
  size : Nat
deriving DecidableEq

/-- The per-account loop of `write_accounts` over the entries at positions
`skip..len`: writes each block, pushes the index entry at the running
cursor, and advances the cursor by the stored size.  Returns the index
entries, the final owners table, the final cursor and the account count. -/
def write_accounts_loop (entries : List StorableEntry) (cursor : Nat)
    (owners_table : AccountOwnersTable) (count : Nat) :
    List AccountIndexWriterEntry × AccountOwnersTable × Nat × Nat :=
  match entries with
  | [] => ([], owners_table, cursor, count)
  | entry :: rest =>
      let r := write_single_account entry owners_table
      let rec_result := write_accounts_loop rest (cursor + r.1) r.2 (count + 1)
      (⟨entry.address, cursor, 0⟩ :: rec_result.1,
        rec_result.2.1, rec_result.2.2.1, rec_result.2.2.2)

/-- The size of one index entry of the `AddressAndOffset` format:
32 address bytes plus an 8-byte offset. -/
def INDEX_ENTRY_SIZE : Nat := 40

/-- The outcome of `TieredStorageWriter::write_accounts`: what was persisted
(footer, index entries, owners) and the returned value. -/
structure WriteOutcome where
  footer : TieredStorageFooter
  index_entries : List AccountIndexWriterEntry
  owners_table : AccountOwnersTable
  result : Except TieredStorageError (List StoredAccountInfo)

/-- `TieredStorageWriter::write_accounts(accounts, skip)`: writes the
account blocks for positions `skip..len`, then the index block, the owners
block and the footer — and then returns `Err(Unsupported)`. -/
def write_accounts (accounts : List StorableEntry) (skip : Nat) :
    WriteOutcome :=
  let r := write_accounts_loop (accounts.drop skip) 0 AccountOwnersTable.new 0
  let account_index_offset := r.2.2.1
  let owners_offset := account_index_offset + INDEX_ENTRY_SIZE * r.1.length
  { footer := { account_entry_count := r.2.2.2,
                account_index_offset := account_index_offset,
                owners_offset := owners_offset },
    index_entries := r.1,
    owners_table := r.2.1,
    result := .error .Unsupported }

/-- Helper: full characterization of the per-account loop — one index entry
per input entry, in input order, at the cumulative byte offsets; the final
cursor advances by the total block size; the count by the number of
entries. -/
theorem write_accounts_loop_spec (entries : List StorableEntry) :
    ∀ cursor : Nat, ∀ owners_table : AccountOwnersTable, ∀ count : Nat,
      (write_accounts_loop entries cursor owners_table count).1.length =
        entries.length ∧
      (write_accounts_loop entries cursor owners_table count).2.2.1 =
        cursor + (entries.map stored_block_len).sum ∧
      (write_accounts_loop entries cursor owners_table count).2.2.2 =
        count + entries.length ∧
      (∀ j : Nat, ∀ e : StorableEntry, entries[j]? = some e →
        (write_accounts_loop entries cursor owners_table count).1[j]? =
          some ⟨e.address,
            cursor + ((entries.take j).map stored_block_len).sum, 0⟩) := by
  induction entries with
  | nil =>
      intro cursor owners_table count
      refine ⟨rfl, by simp [write_accounts_loop], by simp [write_accounts_loop], ?_⟩
      intro j e h
      simp at h
  | cons entry rest ih =>
      intro cursor owners_table count
      obtain ⟨ih1, ih2, ih3, ih4⟩ :=
        ih (cursor + (write_single_account entry owners_table).1)
          (write_single_account entry owners_table).2 (count + 1)
      have hsize : (write_single_account entry owners_table).1 =
          stored_block_len entry := rfl
      refine ⟨?_, ?_, ?_, ?_⟩
      · simp only [write_accounts_loop, List.length_cons]
        rw [ih1]
      · simp only [write_accounts_loop]
        rw [ih2, hsize]
        simp only [List.map_cons, List.sum_cons]
        omega
      · simp only [write_accounts_loop]
        rw [ih3]
        simp only [List.length_cons]
        omega
      · intro j e h
        cases j with
        | zero =>
            rw [List.getElem?_cons_zero] at h
            cases h
            simp only [write_accounts_loop, List.getElem?_cons_zero,
              List.take_zero, List.map_nil, List.sum_nil, Nat.add_zero]
        | succ j =>
            rw [List.getElem?_cons_succ] at h
            have := ih4 j e h
            simp only [write_accounts_loop, List.getElem?_cons_succ]
            rw [this, hsize]
            simp only [List.take_succ_cons, List.map_cons, List.sum_cons]
            congr 2
            omega

/-- C1 (counterexample): `write_accounts` called on the empty batch — a
valid input for which the claimed contract promises `Ok` with zero entries
— persists the footer (zero account entries) and the empty index block and
then still returns `Err(Unsupported)`: there is no successful call. -/
theorem write_accounts_empty_batch_errors :
    (write_accounts [] 0).result = Except.error TieredStorageError.Unsupported ∧
    (write_accounts [] 0).footer.account_entry_count = 0 ∧
    (write_accounts [] 0).index_entries = [] := by
  refine ⟨rfl, rfl, rfl⟩

/-- C1 (amended): for every batch and skip, `write_accounts` persists
exactly `len - skip` account blocks — one index entry per input position
`i ≥ skip`, in input order, whose block offset is the cumulative size of
the preceding blocks — then the index block (40 bytes per entry), the
owners block and the footer with `account_entry_count = len - skip`, and
then unconditionally returns `Err(Unsupported)`; no call returns `Ok`, so
the claimed `StoredAccountInfo` list (offsets `(i - skip) ·
ALIGN_BOUNDARY_OFFSET`) is never produced on this code path (that return
shape exists only in the runtime `append_accounts_impl`). -/
theorem write_accounts_always_unsupported (accounts : List StorableEntry)
    (skip : Nat) :
    (write_accounts accounts skip).result =
      Except.error TieredStorageError.Unsupported ∧
    (write_accounts accounts skip).index_entries.length =
      accounts.length - skip ∧
    (write_accounts accounts skip).footer.account_entry_count =
      accounts.length - skip ∧
    (∀ j : Nat, ∀ e : StorableEntry, (accounts.drop skip)[j]? = some e →
      (write_accounts accounts skip).index_entries[j]? =
        some ⟨e.address,
          (((accounts.drop skip).take j).map stored_block_len).sum, 0⟩) ∧
    (write_accounts accounts skip).footer.account_index_offset =
      ((accounts.drop skip).map stored_block_len).sum ∧
    (write_accounts accounts skip).footer.owners_offset =
      ((accounts.drop skip).map stored_block_len).sum +
        INDEX_ENTRY_SIZE * (accounts.length - skip) := by
  obtain ⟨h1, h2, h3, h4⟩ :=
    write_accounts_loop_spec (accounts.drop skip) 0 AccountOwnersTable.new 0
  have hdroplen : (accounts.drop skip).length = accounts.length - skip :=
    List.length_drop skip accounts
  refine ⟨rfl, ?_, ?_, ?_, ?_, ?_⟩
  · show (write_accounts_loop (accounts.drop skip) 0
        AccountOwnersTable.new 0).1.length = accounts.length - skip
    rw [h1, hdroplen]
  · show (write_accounts_loop (accounts.drop skip) 0
        AccountOwnersTable.new 0).2.2.2 = accounts.length - skip
    rw [h3, hdroplen]
    omega
  · intro j e h
    have := h4 j e h
    show (write_accounts_loop (accounts.drop skip) 0
        AccountOwnersTable.new 0).1[j]? = _
    rw [this]
    simp
  · show (write_accounts_loop (accounts.drop skip) 0
        AccountOwnersTable.new 0).2.2.1 = _
    rw [h2]
    omega
  · show (write_accounts_loop (accounts.drop skip) 0
          AccountOwnersTable.new 0).2.2.1 +
        INDEX_ENTRY_SIZE * (write_accounts_loop (accounts.drop skip) 0
          AccountOwnersTable.new 0).1.length = _
    rw [h2, h1, hdroplen]
    omega

/-- C1 (amended, witness): the writer theorem evaluated on a concrete
one-entry batch with skip 0: the single index entry sits at byte offset 0
and the call returns `Err(Unsupported)`. -/
theorem write_accounts_always_unsupported_witness :
    (write_accounts [⟨none, 42, ZERO_HASH, 7⟩] 0).result =
      Except.error TieredStorageError.Unsupported ∧
    (write_accounts [⟨none, 42, ZERO_HASH, 7⟩] 0).index_entries[0]? =
      some ⟨42, 0, 0⟩ := by
  have h := write_accounts_always_unsupported [⟨none, 42, ZERO_HASH, 7⟩] 0
  refine ⟨h.1, ?_⟩
  have := h.2.2.2.1 0 ⟨none, 42, ZERO_HASH, 7⟩ (by decide)
  simpa using this

/-! ## Hot storage reader (C8 and C10)

From runtime/src/tiered_storage/hot.rs: `HotStorageReader` with
`num_accounts`, `multiplied_index_to_index`, `get_account` and
`account_matches_owners`, plus the iteration loop of
`TieredStorage::accounts` (runtime/src/tiered_storage.rs).

`get_account` resolves the logical index to an account block through
`HotAccountIndexer::get_meta_offset` and parses the block; that indexer is
referenced by hot.rs but is not among the repository files, so the lookup
is modelled from the spec (sections 4.6 and 4.8: the index block maps the
i-th logical index to the i-th account block, in on-disk order) as
positional lookup in the list of parsed blocks. -/

/-- `ALIGN_BOUNDARY_OFFSET` of accounts_file.rs: `mem::size_of::<u64>()`. -/
def ALIGN_BOUNDARY_OFFSET : Nat := 8

/-- `MatchAccountOwnerError` (referenced from append_vec). -/
inductive MatchAccountOwnerError where
  | NoMatch : MatchAccountOwnerError
  | UnableToLoad : MatchAccountOwnerError
deriving DecidableEq

/-- A stored account as the reader reconstructs it from one account block:
its address (from the index block), the owner index (from the meta), the
lamports and the data bytes. -/
structure StoredAccountRec where
  address : Pubkey
  owner_index : Nat
  lamports : Nat
  data : List Nat
deriving DecidableEq

/-- The `HotStorageReader` state: the account entry count of the footer,
the account blocks in on-disk order (the spec-modelled index lookup), and
the owners block. -/
structure HotStorageReader where
  account_entry_count : Nat
  accounts : List StoredAccountRec
  owners : List Pubkey
deriving DecidableEq

/-- `HotStorageReader::num_accounts()`: from the footer. -/
def HotStorageReader.num_accounts (s : HotStorageReader) : Nat :=
  s.account_entry_count

/-- `HotStorageReader::multiplied_index_to_index`: integer division by
`ALIGN_BOUNDARY_OFFSET` (flooring). -/
def multiplied_index_to_index (multiplied_index : Nat) : Nat :=
  multiplied_index / ALIGN_BOUNDARY_OFFSET

/-- `HotStorageReader::get_owner_address(index)`: the owner of the account
at the logical index, resolved through the meta owner index and the owners
block.  `none` embeds the error paths the code unwraps. -/
def HotStorageReader.get_owner_address (s : HotStorageReader) (index : Nat) :
    Option Pubkey :=
  (s.accounts[index]?).bind fun meta => s.owners[meta.owner_index]?

/-- `HotStorageReader::get_account(multiplied_index)`: `None` when the
logical index reaches the footer count, otherwise the account at the
logical index together with `multiplied_index + ALIGN_BOUNDARY_OFFSET`. -/
def HotStorageReader.get_account (s : HotStorageReader)
    (multiplied_index : Nat) : Option (StoredAccountRec × Nat) :=
  if s.account_entry_count ≤ multiplied_index_to_index multiplied_index then
    none
  else
    (s.accounts[multiplied_index_to_index multiplied_index]?).map
      fun account => (account, multiplied_index + ALIGN_BOUNDARY_OFFSET)

/-- Helper: what a successful `get_account` implies — the next index is the
raw argument plus 8 and the logical index is below the count. -/
theorem get_account_some_facts (s : HotStorageReader) (m : Nat)
    (a : StoredAccountRec) (n : Nat) (h : s.get_account m = some (a, n)) :
    n = m + 8 ∧ m < s.account_entry_count * 8 ∧
      s.accounts[m / 8]? = some a := by
  unfold HotStorageReader.get_account at h
  by_cases hc : s.account_entry_count ≤ multiplied_index_to_index m
  · rw [if_pos hc] at h
    cases h
  · rw [if_neg hc] at h
    unfold multiplied_index_to_index ALIGN_BOUNDARY_OFFSET at hc h
    cases hget : s.accounts[m / 8]? with
    | none => rw [hget] at h; cases h
    | some b =>
        rw [hget] at h
        simp only [Option.map_some', Option.some.injEq, Prod.mk.injEq] at h
        obtain ⟨hab, hn⟩ := h
        subst hab
        subst hn
        refine ⟨rfl, ?_, rfl⟩
        omega

/-- The iteration loop of `TieredStorage::accounts`: repeatedly calls
`get_account` with the returned next index, collecting the accounts, until
`None`. -/
def HotStorageReader.accountsFrom (s : HotStorageReader)
    (multiplied_index : Nat) : List StoredAccountRec :=
  match h : s.get_account multiplied_index with
  | none => []
  | some (account, next) => account :: s.accountsFrom next
termination_by s.account_entry_count * 8 - multiplied_index
decreasing_by
  obtain ⟨hn, hlt, -⟩ := get_account_some_facts s multiplied_index account next h
  omega

/-- The multiplied indices the iteration loop visits. -/
def HotStorageReader.indicesFrom (s : HotStorageReader)
    (multiplied_index : Nat) : List Nat :=
  match h : s.get_account multiplied_index with
  | none => []
  | some (account, next) => multiplied_index :: s.indicesFrom next
termination_by s.account_entry_count * 8 - multiplied_index
decreasing_by
  obtain ⟨hn, hlt, -⟩ := get_account_some_facts s multiplied_index account next h
  omega

/-- `HotStorageReader::account_matches_owners(multiplied_index, owners)`:
`UnableToLoad` when the logical index reaches the count (or the owner
cannot be resolved, which the code unwraps), otherwise the position of the
resolved owner in the supplied list, or `NoMatch`. -/
def HotStorageReader.account_matches_owners (s : HotStorageReader)
    (multiplied_index : Nat) (owners : List Pubkey) :
    Except MatchAccountOwnerError Nat :=
  if s.num_accounts ≤ multiplied_index_to_index multiplied_index then
    .error .UnableToLoad
  else
    match s.get_owner_address (multiplied_index_to_index multiplied_index) with
    | none => .error .UnableToLoad
    | some owner =>
        match owners.indexOf? owner with
        | some pos => .ok pos
        | none => .error .NoMatch

/-- The well-formedness of a finalized file as the reader sees it: the
footer count equals the number of account blocks. -/
def ReaderWF (s : HotStorageReader) : Prop :=
  s.account_entry_count = s.accounts.length

theorem accountsFrom_of_none (s : HotStorageReader) (m : Nat)
    (h : s.get_account m = none) : s.accountsFrom m = [] := by
  rw [HotStorageReader.accountsFrom]
  split
  · rfl
  · next a n heq =>
      rw [h] at heq
      cases heq

theorem accountsFrom_of_some (s : HotStorageReader) (m : Nat)
    (a : StoredAccountRec) (n : Nat) (h : s.get_account m = some (a, n)) :
    s.accountsFrom m = a :: s.accountsFrom n := by
  rw [HotStorageReader.accountsFrom]
  split
  · next heq =>
      rw [h] at heq
      cases heq
  · next b n2 heq =>
      rw [h] at heq
      simp only [Option.some.injEq, Prod.mk.injEq] at heq
      rw [heq.1, heq.2]

theorem indicesFrom_of_none (s : HotStorageReader) (m : Nat)
    (h : s.get_account m = none) : s.indicesFrom m = [] := by
  rw [HotStorageReader.indicesFrom]
  split
  · rfl
  · next a n heq =>
      rw [h] at heq
      cases heq

theorem indicesFrom_of_some (s : HotStorageReader) (m : Nat)
    (a : StoredAccountRec) (n : Nat) (h : s.get_account m = some (a, n)) :
    s.indicesFrom m = m :: s.indicesFrom n := by
  rw [HotStorageReader.indicesFrom]
  split
  · next heq =>
      rw [h] at heq
      cases heq
  · next b n2 heq =>
      rw [h] at heq
      simp only [Option.some.injEq, Prod.mk.injEq] at heq
      rw [heq.2]

theorem get_account_none_iff (s : HotStorageReader) (hwf : ReaderWF s)
    (m : Nat) :
    s.get_account m = none ↔
      s.account_entry_count ≤ m / ALIGN_BOUNDARY_OFFSET := by
  have hlen : s.account_entry_count = s.accounts.length := hwf
  unfold HotStorageReader.get_account multiplied_index_to_index
  by_cases hc : s.account_entry_count ≤ m / ALIGN_BOUNDARY_OFFSET
  · simp [hc]
  · rw [if_neg hc]
    have hlt : m / ALIGN_BOUNDARY_OFFSET < s.accounts.length := by
      omega
    simp only [List.getElem?_eq_getElem hlt, Option.map_some']
    simp [hc]

theorem get_account_eq (s : HotStorageReader) (hwf : ReaderWF s) (m : Nat) :
    s.get_account m =
      (s.accounts[m / 8]?).map (fun a => (a, m + 8)) := by
  unfold HotStorageReader.get_account multiplied_index_to_index
    ALIGN_BOUNDARY_OFFSET
  by_cases hc : s.account_entry_count ≤ m / 8
  · rw [if_pos hc]
    have hlen : s.account_entry_count = s.accounts.length := hwf
    have hnone : s.accounts[m / 8]? = none := by
      apply List.getElem?_eq_none
      omega
    rw [hnone]
    rfl
  · rw [if_neg hc]

theorem accountsFrom_eq_drop (s : HotStorageReader) (hwf : ReaderWF s)
    (m : Nat) :
    s.accountsFrom m = s.accounts.drop (m / ALIGN_BOUNDARY_OFFSET) := by
  have hlen : s.account_entry_count = s.accounts.length := hwf
  have H : ∀ fuel m2, s.account_entry_count * 8 - m2 ≤ fuel →
      s.accountsFrom m2 = s.accounts.drop (m2 / ALIGN_BOUNDARY_OFFSET) := by
    intro fuel
    induction fuel with
    | zero =>
        intro m2 hle
        have hc : s.account_entry_count ≤ m2 / ALIGN_BOUNDARY_OFFSET := by
          unfold ALIGN_BOUNDARY_OFFSET
          omega
        rw [accountsFrom_of_none s m2 ((get_account_none_iff s hwf m2).mpr hc)]
        have : s.accounts.length ≤ m2 / ALIGN_BOUNDARY_OFFSET := by
          rw [← hlen]
          exact hc
        rw [List.drop_eq_nil_iff.mpr this]
    | succ n ih =>
        intro m2 hle
        by_cases hc : s.account_entry_count ≤ m2 / ALIGN_BOUNDARY_OFFSET
        · rw [accountsFrom_of_none s m2 ((get_account_none_iff s hwf m2).mpr hc)]
          have : s.accounts.length ≤ m2 / ALIGN_BOUNDARY_OFFSET := by
            rw [← hlen]
            exact hc
          rw [List.drop_eq_nil_iff.mpr this]
        · have hidx : m2 / 8 < s.accounts.length := by
            unfold ALIGN_BOUNDARY_OFFSET at hc
            omega
          have hsome : s.get_account m2 =
              some (s.accounts[m2 / 8], m2 + 8) := by
            rw [get_account_eq s hwf m2, List.getElem?_eq_getElem hidx]
            rfl
          rw [accountsFrom_of_some s m2 _ _ hsome]
          have hrec := ih (m2 + 8) (by
            unfold ALIGN_BOUNDARY_OFFSET at hc
            have : m2 < s.account_entry_count * 8 := by omega
            omega)
          rw [hrec]
          have hstep : (m2 + 8) / ALIGN_BOUNDARY_OFFSET =
              m2 / ALIGN_BOUNDARY_OFFSET + 1 := by
            unfold ALIGN_BOUNDARY_OFFSET
            omega
          rw [hstep]
          unfold ALIGN_BOUNDARY_OFFSET
          exact (List.drop_eq_getElem_cons hidx).symm
  exact H (s.account_entry_count * 8 - m) m le_rfl

theorem indicesFrom_residue (s : HotStorageReader) (hwf : ReaderWF s)
    (m : Nat) : ∀ i ∈ s.indicesFrom m, i % 8 = m % 8 := by
  have hlen : s.account_entry_count = s.accounts.length := hwf
  have H : ∀ fuel m2, s.account_entry_count * 8 - m2 ≤ fuel →
      ∀ i ∈ s.indicesFrom m2, i % 8 = m2 % 8 := by
    intro fuel
    induction fuel with
    | zero =>
        intro m2 hle i hi
        have hc : s.account_entry_count ≤ m2 / ALIGN_BOUNDARY_OFFSET := by
          unfold ALIGN_BOUNDARY_OFFSET
          omega
        rw [indicesFrom_of_none s m2 ((get_account_none_iff s hwf m2).mpr hc)] at hi
        cases hi
    | succ n ih =>
        intro m2 hle i hi
        by_cases hc : s.account_entry_count ≤ m2 / ALIGN_BOUNDARY_OFFSET
        · rw [indicesFrom_of_none s m2 ((get_account_none_iff s hwf m2).mpr hc)] at hi
          cases hi
        · have hidx : m2 / 8 < s.accounts.length := by
            unfold ALIGN_BOUNDARY_OFFSET at hc
            omega
          have hsome : s.get_account m2 =
              some (s.accounts[m2 / 8], m2 + 8) := by
            rw [get_account_eq s hwf m2, List.getElem?_eq_getElem hidx]
            rfl
          rw [indicesFrom_of_some s m2 _ _ hsome] at hi
          rcases List.mem_cons.mp hi with rfl | hi2
          · rfl
          · have hrec := ih (m2 + 8) (by
              unfold ALIGN_BOUNDARY_OFFSET at hc
              have : m2 < s.account_entry_count * 8 := by omega
              omega) i hi2
            omega
  exact H (s.account_entry_count * 8 - m) m le_rfl

/-- C8: on a well-formed file, `get_account` returns `None` exactly when
the logical index reaches the footer account entry count, and otherwise
returns the account at that index together with the next index one account
further; iterating from the first index visits every stored account exactly
once in on-disk order and then yields `None` (the call one past the last
account returns `None`); and on the file written from the empty batch the
footer count is 0, so `num_accounts()` is 0 and `get_account(0)` is
`None`. -/
theorem get_account_iteration_spec (s : HotStorageReader) (hwf : ReaderWF s) :
    (∀ m : Nat, s.get_account m = none ↔
      s.account_entry_count ≤ m / ALIGN_BOUNDARY_OFFSET) ∧
    (∀ m : Nat, m / ALIGN_BOUNDARY_OFFSET < s.account_entry_count →
      ∃ a, s.accounts[m / ALIGN_BOUNDARY_OFFSET]? = some a ∧
        s.get_account m = some (a, m + ALIGN_BOUNDARY_OFFSET)) ∧
    s.accountsFrom 0 = s.accounts ∧
    s.get_account (s.account_entry_count * ALIGN_BOUNDARY_OFFSET) = none ∧
    HotStorageReader.num_accounts
      ⟨(write_accounts [] 0).footer.account_entry_count, [], []⟩ = 0 ∧
    HotStorageReader.get_account
      ⟨(write_accounts [] 0).footer.account_entry_count, [], []⟩ 0 = none := by
  have hlen : s.account_entry_count = s.accounts.length := hwf
  refine ⟨get_account_none_iff s hwf, ?_, ?_, ?_, rfl, rfl⟩
  · intro m hm
    have hidx : m / 8 < s.accounts.length := by
      unfold ALIGN_BOUNDARY_OFFSET at hm
      omega
    refine ⟨s.accounts[m / 8], ?_, ?_⟩
    · unfold ALIGN_BOUNDARY_OFFSET
      exact List.getElem?_eq_getElem hidx
    · rw [get_account_eq s hwf m]
      unfold ALIGN_BOUNDARY_OFFSET
      rw [List.getElem?_eq_getElem hidx]
      rfl
  · rw [accountsFrom_eq_drop s hwf 0]
    simp
  · rw [get_account_none_iff s hwf]
    unfold ALIGN_BOUNDARY_OFFSET
    omega

/-- C8 (witness): the iteration theorem evaluated on a concrete two-account
well-formed storage — the iteration from index 0 yields exactly the two
stored accounts in order. -/
theorem get_account_iteration_spec_witness :
    HotStorageReader.accountsFrom
      ⟨2, [⟨1, 0, 10, []⟩, ⟨2, 0, 20, []⟩], [9]⟩ 0 =
      [⟨1, 0, 10, []⟩, ⟨2, 0, 20, []⟩] :=
  (get_account_iteration_spec
    ⟨2, [⟨1, 0, 10, []⟩, ⟨2, 0, 20, []⟩], [9]⟩ rfl).2.2.1

/-- C10: the reader accepts unaligned multiplied indices by flooring —
`multiplied_index_to_index` is integer division by 8, `get_account(m)` and
`account_matches_owners(m, owners)` operate on the logical account
`m / 8`, a successful `get_account(m)` returns `m + 8` (the raw argument
plus 8) as the next index, and an iteration started at any index visits the
stored accounts from logical position `m / 8` on while every visited index
keeps the residue `m % 8`. -/
theorem multiplied_index_flooring_spec (s : HotStorageReader)
    (hwf : ReaderWF s) :
    (∀ m : Nat, multiplied_index_to_index m = m / 8) ∧
    (∀ m : Nat, s.get_account m =
      (s.accounts[m / 8]?).map (fun a => (a, m + 8))) ∧
    (∀ m : Nat, ∀ owners : List Pubkey,
      s.account_matches_owners m owners =
        s.account_matches_owners (8 * (m / 8)) owners) ∧
    (∀ m : Nat, ∀ a : StoredAccountRec, ∀ n : Nat,
      s.get_account m = some (a, n) → n = m + 8) ∧
    (∀ m : Nat, s.accountsFrom m = s.accounts.drop (m / 8)) ∧
    (∀ m : Nat, ∀ i ∈ s.indicesFrom m, i % 8 = m % 8) := by
  refine ⟨fun m => rfl, get_account_eq s hwf, ?_, ?_, ?_,
    indicesFrom_residue s hwf⟩
  · intro m owners
    unfold HotStorageReader.account_matches_owners multiplied_index_to_index
      ALIGN_BOUNDARY_OFFSET
    have h8 : 8 * (m / 8) / 8 = m / 8 := by omega
    rw [h8]
  · intro m a n h
    exact (get_account_some_facts s m a n h).1
  · intro m
    have h := accountsFrom_eq_drop s hwf m
    unfold ALIGN_BOUNDARY_OFFSET at h
    exact h

/-- C10 (witness): the flooring theorem evaluated at the unaligned
multiplied index 3 on a concrete two-account storage: the result is the
account at logical index 0 and the next index is the raw 3 plus 8. -/
theorem multiplied_index_flooring_spec_witness :
    HotStorageReader.get_account
      ⟨2, [⟨3, 0, 30, []⟩, ⟨4, 0, 40, []⟩], [5]⟩ 3 =
      some (⟨3, 0, 30, []⟩, 11) := by
  have h := (multiplied_index_flooring_spec
    ⟨2, [⟨3, 0, 30, []⟩, ⟨4, 0, 40, []⟩], [5]⟩ rfl).2.1 3
  simpa using h

end TieredStorageProof
